import Mathlib

/-!
Verification of the beam-search decoder `Seq2SeqWithBPE.decode_beam_search`
(src/seq2seq.py, lines 147-197).

The decoder is embedded shallowly:

* The Sequence Model collaborator (`inference_encoder_model` /
  `inference_decoder_model.predict`) is an opaque parameter: a `step`
  function from (previous token id, decoder state) to a probability
  distribution (a dense rational-valued list indexed by vocabulary id)
  and a fresh state.  The encoder is abstracted into the initial state
  argument.
* The float `score` field (`score = Σ -log pᵢ`, line 185) is represented
  exactly by the cumulative probability `Π pᵢ` of the hypothesis, with the
  comparison order reversed: `x ↦ -log x` is a strict antitone bijection
  from `(0, 1]` onto `[0, ∞)` sending `0` to `+∞`, so "lower score" is
  "higher cumulative probability", the float `+∞` produced by `-log 0` is
  cumulative probability `0`, and the update `score - log p` is
  multiplication by `p`.  The lemmas `Score.le_iff_neglog` and
  `Score.neglog_addNegLog` justify this against the real-valued `-log`.
* `np.argsort(-probs)` (line 176) is modelled as sorting the vocabulary
  ids by descending probability with equal probabilities kept in
  ascending id order.  (For the array sizes at which the decoder is
  exercised numpy's default sort runs its stable insertion-sort path, so
  ties keep index order; the spec fixes this lowest-id tie-break as the
  intended deterministic rule.)  The order used is total and
  antisymmetric, so the sorted permutation is unique.
* Python's `sorted` with a score key (line 189) is a stable total-preorder
  sort; it is modelled by insertion sort over the score comparison, which
  is likewise stable.

`Rat.mul` and friends are `@[irreducible]` in core; they are reopened for
kernel reduction so that concrete runs of the decoder can be evaluated by
`decide`.
-/

unseal Rat.mul Rat.add Rat.sub Rat.inv

/-- Exact embedding of the decoder's floating-point `score` field
(lines 154, 185).  `prob` is the cumulative probability of the hypothesis;
the score the code stores is `-log prob`. -/
structure Score where
  prob : ℚ
deriving DecidableEq

/-- The initial `'score': 0.0` (line 154): cumulative probability `1`. -/
def Score.zero : Score := ⟨1⟩

/-- The update `candidate['score'] - np.log(probs[idx])` (line 185):
adding `-log p` to the score multiplies the cumulative probability by `p`. -/
def Score.addNegLog (s : Score) (p : ℚ) : Score := ⟨s.prob * p⟩

/-- Score comparison, ascending (`-log` is antitone, so a lower score is a
higher cumulative probability). -/
def Score.le (s t : Score) : Prop := t.prob ≤ s.prob

instance : DecidableRel Score.le :=
  fun s t => inferInstanceAs (Decidable (t.prob ≤ s.prob))

/-- The float score `+∞` produced by `-log 0`: cumulative probability `0`. -/
def Score.isInfinite (s : Score) : Prop := s.prob = 0

/-- Justification of the score representation: on positive cumulative
probabilities the embedded order agrees with comparison of the real scores
`-log prob` that the code computes. -/
theorem Score.le_iff_neglog (s t : Score) (hs : 0 < s.prob) (ht : 0 < t.prob) :
    Score.le s t ↔ -Real.log (s.prob : ℝ) ≤ -Real.log (t.prob : ℝ) := by
  have hs' : (0 : ℝ) < (s.prob : ℝ) := by exact_mod_cast hs
  have ht' : (0 : ℝ) < (t.prob : ℝ) := by exact_mod_cast ht
  unfold Score.le
  rw [neg_le_neg_iff, Real.log_le_log_iff ht' hs']
  exact ⟨fun h => by exact_mod_cast h, fun h => by exact_mod_cast h⟩

/-- Justification of the score update: on nonzero probabilities the real
score of `addNegLog s p` is the real score of `s` plus `-log p`. -/
theorem Score.neglog_addNegLog (s : Score) (p : ℚ) (hs : s.prob ≠ 0) (hp : p ≠ 0) :
    -Real.log (((s.addNegLog p).prob : ℚ) : ℝ)
      = -Real.log (s.prob : ℝ) + -Real.log (p : ℝ) := by
  have hs' : (s.prob : ℝ) ≠ 0 := by exact_mod_cast hs
  have hp' : (p : ℝ) ≠ 0 := by exact_mod_cast hp
  unfold Score.addNegLog
  push_cast
  rw [Real.log_mul hs' hp']
  ring

/-- The index order realised by `np.argsort(-probs)` (line 176): descending
probability, ties in ascending id order. -/
def idxLe (probs : List ℚ) (i j : Nat) : Prop :=
  probs.getD j 0 < probs.getD i 0 ∨ (probs.getD i 0 = probs.getD j 0 ∧ i ≤ j)

instance (probs : List ℚ) : DecidableRel (idxLe probs) := fun _ _ =>
  inferInstanceAs (Decidable (_ ∨ _))

instance (probs : List ℚ) : IsTotal Nat (idxLe probs) := by
  constructor
  intro i j
  rcases lt_trichotomy (probs.getD i 0) (probs.getD j 0) with h | h | h
  · exact Or.inr (Or.inl h)
  · rcases Nat.le_total i j with hij | hij
    · exact Or.inl (Or.inr ⟨h, hij⟩)
    · exact Or.inr (Or.inr ⟨h.symm, hij⟩)
  · exact Or.inl (Or.inl h)

instance (probs : List ℚ) : IsTrans Nat (idxLe probs) := by
  constructor
  intro a b c hab hbc
  rcases hab with h1 | ⟨e1, l1⟩ <;> rcases hbc with h2 | ⟨e2, l2⟩
  · exact Or.inl (lt_trans h2 h1)
  · exact Or.inl (by rw [e2] at h1; exact h1)
  · exact Or.inl (by rw [e1]; exact h2)
  · exact Or.inr ⟨e1.trans e2, le_trans l1 l2⟩

/-- `np.argsort(-probs)` (line 176): all vocabulary ids, ordered by
decreasing probability, equal probabilities by increasing id. -/
def argsortDesc (probs : List ℚ) : List Nat :=
  List.insertionSort (idxLe probs) (List.range probs.length)

/-- The Sequence Model collaborator, reduced to its decode-time interface:
`inference_decoder_model.predict` (lines 171-174) — from the previous token
id and the decoder state, the next-token distribution and the next state.
`σ` is the opaque state type. -/
structure SeqModel (σ : Type) where
  step : Nat → σ → List ℚ × σ

/-- One beam-search hypothesis: the candidate dict built at lines 150-156
and 177-187.  The parallel `token_sequence` of human-readable pieces is
omitted: it is the elementwise image of `idx_sequence` under the
vocabulary lookup and carries no extra information. -/
structure Candidate (σ : Type) where
  states : σ
  idx_sequence : List Nat
  score : Score
  live : Bool

/-- Expansion of one candidate (loop body, lines 164-187): a dead candidate
is passed through unchanged; a live candidate queries the model once on its
last token and yields one successor per id in
`np.argsort(-probs)[:beam_width]`, each scored by `-log` of its
probability and live unless the id is the stop token. -/
def expandCandidate {σ : Type} (model : SeqModel σ) (stop_token_idx beam_width : Nat)
    (candidate : Candidate σ) : List (Candidate σ) :=
  if candidate.live then
    let res := model.step (candidate.idx_sequence.getLastD 0) candidate.states
    ((argsortDesc res.1).take beam_width).map fun idx =>
      { states := res.2
        idx_sequence := candidate.idx_sequence ++ [idx]
        score := candidate.score.addNegLog (res.1.getD idx 0)
        live := idx ≠ stop_token_idx }
  else [candidate]

/-- The comparison used by `sorted(new_candidates, key=lambda c: c['score'])`
(lines 189-191). -/
def scoreRel {σ : Type} (c d : Candidate σ) : Prop := Score.le c.score d.score

instance {σ : Type} : DecidableRel (@scoreRel σ) :=
  fun c d => inferInstanceAs (Decidable (Score.le c.score d.score))

instance {σ : Type} : IsTotal (Candidate σ) scoreRel :=
  ⟨fun c d => le_total d.score.prob c.score.prob⟩

instance {σ : Type} : IsTrans (Candidate σ) scoreRel :=
  ⟨fun _ _ _ hab hbc => le_trans hbc hab⟩

/-- `sorted(new_candidates, key=lambda c: c['score'])` (lines 189-191):
CPython's stable sort by the score key, modelled by (stable) insertion
sort over the total score comparison. -/
def sortCandidates {σ : Type} (l : List (Candidate σ)) : List (Candidate σ) :=
  List.insertionSort scoreRel l

/-- One generation advance (lines 163-191): expand every candidate of the
beam in order, sort the pooled candidates ascending by score, and keep the
first `beam_width`. -/
def advance {σ : Type} (model : SeqModel σ) (stop_token_idx beam_width : Nat)
    (beam : List (Candidate σ)) : List (Candidate σ) :=
  (sortCandidates (beam.flatMap (expandCandidate model stop_token_idx beam_width))).take
    beam_width

/-- `live_k` as recomputed at lines 193-194: number of live candidates. -/
def liveK {σ : Type} (beam : List (Candidate σ)) : Nat :=
  (beam.filter fun c => c.live).length

/-- `dead_k` as recomputed at lines 193-195: number of dead candidates. -/
def deadK {σ : Type} (beam : List (Candidate σ)) : Nat :=
  (beam.filter fun c => !c.live).length

/-- The decode loop (lines 160-195): `for _ in range(max_len_target)`, each
iteration first evaluating `if not(live_k and dead_k < beam_width): break`
and otherwise advancing one generation.  Returns the final beam together
with the number of generations (loop-body executions) actually performed. -/
def decodeLoop {σ : Type} (model : SeqModel σ) (stop_token_idx beam_width : Nat) :
    Nat → List (Candidate σ) → List (Candidate σ) × Nat
  | 0, beam => (beam, 0)
  | fuel + 1, beam =>
    if liveK beam ≠ 0 ∧ deadK beam < beam_width then
      let r :=
        decodeLoop model stop_token_idx beam_width fuel
          (advance model stop_token_idx beam_width beam)
      (r.1, r.2 + 1)
    else (beam, 0)

/-- `decode_beam_search` (lines 147-197).  `initial_states` abstracts the
encoder call of line 148; the function returns the winning candidate's id
sequence (`top_candidates[0]` at line 197; `none` models the `IndexError`
that an empty beam would raise there) together with the number of
generations executed. -/
def decode_beam_search {σ : Type} (model : SeqModel σ) (initial_states : σ)
    (start_token_idx stop_token_idx beam_width max_len_target : Nat) :
    Option (List Nat) × Nat :=
  let top_candidates : List (Candidate σ) :=
    [{ states := initial_states
       idx_sequence := [start_token_idx]
       score := Score.zero
       live := true }]
  let r := decodeLoop model stop_token_idx beam_width max_len_target top_candidates
  ((r.1.head?).map Candidate.idx_sequence, r.2)

/-- Scenario model of C3/C9's forced stop: vocabulary size 4, stop token
id 1, probability 1 on the stop token regardless of input. -/
def forcedStopModel : SeqModel Unit := ⟨fun _ _ => ([0, 1, 0, 0], ())⟩

/-- Scenario model of C4's tie-break: uniform probability 1/4 over a
4-token vocabulary regardless of input. -/
def uniformModel : SeqModel Unit := ⟨fun _ _ => ([mkRat 1 4, mkRat 1 4, mkRat 1 4, mkRat 1 4], ())⟩

/-- Scenario model of C6: a degenerate distribution (sums to 2, not to 1)
regardless of input. -/
def degenerateModel : SeqModel Unit := ⟨fun _ _ => ([2, 0, 0, 0], ())⟩

theorem decodeLoop_snd_le {σ : Type} (model : SeqModel σ) (stop w : Nat) :
    ∀ (fuel : Nat) (beam : List (Candidate σ)),
      (decodeLoop model stop w fuel beam).2 ≤ fuel := by
  intro fuel
  induction fuel with
  | zero => intro beam; simp [decodeLoop]
  | succ n ih =>
    intro beam
    simp only [decodeLoop]
    split
    · simpa using Nat.succ_le_succ (ih (advance model stop w beam))
    · exact Nat.zero_le _

/-- C1: for every input sequence, every beam width, and every behaviour of
the probability model, `decode_beam_search` halts after at most
`max_len_target` generations (executions of the decode-loop body). -/
theorem C1_termination {σ : Type} (model : SeqModel σ) (initial_states : σ)
    (start_token_idx stop_token_idx beam_width max_len_target : Nat) :
    (decode_beam_search model initial_states start_token_idx stop_token_idx
        beam_width max_len_target).2 ≤ max_len_target := by
  simpa [decode_beam_search] using
    decodeLoop_snd_le model stop_token_idx beam_width max_len_target _

/-- C2: after every pruning step (generation advance) — for every incoming
beam, every input and every model behaviour — the new beam holds at most
`beam_width` candidates and is sorted ascending by score; every generation
after the first is such an `advance` result. -/
theorem C2_beam_size_sorted {σ : Type} (model : SeqModel σ)
    (stop_token_idx beam_width : Nat) (beam : List (Candidate σ)) :
    (advance model stop_token_idx beam_width beam).length ≤ beam_width ∧
      List.Sorted scoreRel (advance model stop_token_idx beam_width beam) := by
  constructor
  · exact List.length_take_le _ _
  · exact List.Pairwise.sublist (List.take_sublist _ _)
      (List.sorted_insertionSort scoreRel _)

/-- C3 counterexample: with the forced-stop model (vocabulary size 4, stop
token id 1, probability 1 on the stop token whatever the input),
`beam_width = 3`, `max_len_target = 10`, the decoder does not return a
single-token (stop-only) sequence after exactly 1 generation. -/
theorem C3_counterexample :
    ¬ ((decode_beam_search forcedStopModel () 0 1 3 10).1 = some [1] ∧
        (decode_beam_search forcedStopModel () 0 1 3 10).2 = 1) := by decide

/-- C3 (amended): with the forced-stop model, `beam_width = 3` and
`max_len_target = 10`, decode returns the two-token sequence consisting of
the start token followed by the stop token, and the loop halts after
exactly 3 generations: the stop hypothesis completes in generation 1, but
the two zero-probability live candidates keep
`dead_k = 1 < beam_width = 3`, so the loop continues until every beam slot
is dead (generation 3). -/
theorem C3_forced_stop_amended :
    decode_beam_search forcedStopModel () 0 1 3 10 = (some [0, 1], 3) := by decide

/-- C5 counterexample: a call with `beam_width = 0` is not rejected before
the loop starts: it returns a normal result (the start-token-only
sequence, zero generations) — the code contains no configuration
validation and raises no InvalidConfiguration error. -/
theorem C5_counterexample :
    (decode_beam_search uniformModel () 0 1 0 10).1 = some [0] ∧
      (decode_beam_search uniformModel () 0 1 0 10).2 = 0 := by decide

/-- C5 (amended): there is no configuration validation; with
`beam_width = 0` or `max_len_target = 0` the decode-loop body never runs
and the start-token-only sequence is returned — the call neither fails
before the loop nor mid-search. -/
theorem C5_no_validation {σ : Type} (model : SeqModel σ) (initial_states : σ)
    (start_token_idx stop_token_idx beam_width max_len_target : Nat)
    (h : beam_width = 0 ∨ max_len_target = 0) :
    decode_beam_search model initial_states start_token_idx stop_token_idx
        beam_width max_len_target = (some [start_token_idx], 0) := by
  rcases h with h | h
  · subst h
    cases max_len_target with
    | zero => rfl
    | succ n => simp [decode_beam_search, decodeLoop, deadK]
  · subst h; rfl

/-- C5 witness: the amended no-validation behaviour at a concrete call. -/
theorem C5_witness :
    ((0 : Nat) = 0 ∨ (10 : Nat) = 0) ∧
      decode_beam_search uniformModel () 5 1 0 10 = (some [5], 0) :=
  ⟨Or.inl rfl, C5_no_validation uniformModel () 5 1 0 10 (Or.inl rfl)⟩

theorem mem_argsortDesc {probs : List ℚ} {i : Nat} :
    i ∈ argsortDesc probs ↔ i < probs.length := by
  unfold argsortDesc
  rw [(List.perm_insertionSort (idxLe probs) (List.range probs.length)).mem_iff]
  exact List.mem_range

theorem length_argsortDesc (probs : List ℚ) :
    (argsortDesc probs).length = probs.length := by
  unfold argsortDesc
  rw [(List.perm_insertionSort (idxLe probs) (List.range probs.length)).length_eq,
    List.length_range]

theorem sorted_sortCandidates {σ : Type} (l : List (Candidate σ)) :
    List.Sorted scoreRel (sortCandidates l) :=
  List.sorted_insertionSort scoreRel l

/-- The candidate built at lines 150-156 over the trivial state,
start token id 0. -/
def initialCandidate : Candidate Unit :=
  { states := (), idx_sequence := [0], score := Score.zero, live := true }

/-- C7: for a candidate whose score is well-formed (cumulative probability
in `[0,1]`, i.e. a non-negative score) and a model whose distributions
take values in `[0,1]`, every successor produced by expansion has score ≥
the parent's score, and its score is again non-negative: each step
multiplies the cumulative probability by some `0 ≤ p ≤ 1`, i.e. adds
`-log p ≥ 0`. -/
theorem C7_score_monotone {σ : Type} (model : SeqModel σ)
    (stop_token_idx beam_width : Nat) (c : Candidate σ)
    (hc0 : 0 ≤ c.score.prob) (hc1 : c.score.prob ≤ 1)
    (hmodel : ∀ t s, ∀ p ∈ (model.step t s).1, 0 ≤ p ∧ p ≤ 1) :
    ∀ d ∈ expandCandidate model stop_token_idx beam_width c,
      Score.le c.score d.score ∧ 0 ≤ d.score.prob ∧ d.score.prob ≤ 1 := by
  intro d hd
  unfold expandCandidate at hd
  by_cases hl : c.live
  · rw [if_pos hl] at hd
    rcases List.mem_map.mp hd with ⟨idx, hidx, rfl⟩
    have hmem : idx ∈ argsortDesc (model.step (c.idx_sequence.getLastD 0) c.states).1 :=
      List.mem_of_mem_take hidx
    have hlt : idx < (model.step (c.idx_sequence.getLastD 0) c.states).1.length :=
      mem_argsortDesc.mp hmem
    have hp : (model.step (c.idx_sequence.getLastD 0) c.states).1.getD idx 0
        ∈ (model.step (c.idx_sequence.getLastD 0) c.states).1 := by
      rw [List.getD_eq_getElem _ 0 hlt]
      exact List.getElem_mem hlt
    obtain ⟨hp0, hp1⟩ := hmodel _ _ _ hp
    refine ⟨?_, mul_nonneg hc0 hp0, ?_⟩
    · show (c.score.addNegLog _).prob ≤ c.score.prob
      unfold Score.addNegLog
      calc c.score.prob * (model.step (c.idx_sequence.getLastD 0) c.states).1.getD idx 0
          ≤ c.score.prob * 1 := mul_le_mul_of_nonneg_left hp1 hc0
        _ = c.score.prob := mul_one _
    · calc c.score.prob * (model.step (c.idx_sequence.getLastD 0) c.states).1.getD idx 0
          ≤ c.score.prob * 1 := mul_le_mul_of_nonneg_left hp1 hc0
        _ = c.score.prob := mul_one _
        _ ≤ 1 := hc1
  · rw [if_neg hl] at hd
    rw [List.mem_singleton] at hd
    subst hd
    exact ⟨le_refl _, hc0, hc1⟩

/-- C7 witness: monotonicity applied to the initial candidate under the
forced-stop model. -/
theorem C7_witness :
    (0 ≤ initialCandidate.score.prob) ∧ (initialCandidate.score.prob ≤ 1) ∧
      (∀ t s, ∀ p ∈ (forcedStopModel.step t s).1, 0 ≤ p ∧ p ≤ 1) ∧
      (∀ d ∈ expandCandidate forcedStopModel 1 3 initialCandidate,
        Score.le initialCandidate.score d.score ∧
          0 ≤ d.score.prob ∧ d.score.prob ≤ 1) := by
  have hmodel : ∀ t s, ∀ p ∈ (forcedStopModel.step t s).1, 0 ≤ p ∧ p ≤ 1 := by
    intro t s p hp
    have hp' : p ∈ ([0, 1, 0, 0] : List ℚ) := hp
    fin_cases hp' <;> norm_num
  exact ⟨by norm_num [initialCandidate, Score.zero],
    by norm_num [initialCandidate, Score.zero],
    hmodel,
    C7_score_monotone forcedStopModel 1 3 initialCandidate
      (by norm_num [initialCandidate, Score.zero])
      (by norm_num [initialCandidate, Score.zero]) hmodel⟩

/-- C8: a top-k-selected token of probability exactly 0 yields the score
`+∞ = -log 0` (cumulative probability 0 in exact arithmetic — no NaN can
arise), is not excluded by the expansion step, which keeps
`min(beam_width, vocabulary size)` successors whatever the probability
values and keeps the zero-probability successor among them, and the
ascending sort places every infinite-score candidate after every
finite-score candidate. -/
theorem C8_zero_probability {σ : Type} (model : SeqModel σ)
    (stop_token_idx beam_width : Nat) (c : Candidate σ) (hl : c.live = true) :
    ((expandCandidate model stop_token_idx beam_width c).length =
        min beam_width (model.step (c.idx_sequence.getLastD 0) c.states).1.length) ∧
      (∀ idx ∈ (argsortDesc
            (model.step (c.idx_sequence.getLastD 0) c.states).1).take beam_width,
        (model.step (c.idx_sequence.getLastD 0) c.states).1.getD idx 0 = 0 →
        ∃ d ∈ expandCandidate model stop_token_idx beam_width c,
          d.idx_sequence = c.idx_sequence ++ [idx] ∧ d.score.isInfinite) ∧
      (∀ (l : List (Candidate σ)) (i j : Fin (sortCandidates l).length),
        ((sortCandidates l).get i).score.isInfinite →
        0 < ((sortCandidates l).get j).score.prob → j < i) := by
  refine ⟨?_, ?_, ?_⟩
  · unfold expandCandidate
    rw [if_pos hl]
    rw [List.length_map, List.length_take, length_argsortDesc]
  · intro idx hidx h0
    refine ⟨{ states := (model.step (c.idx_sequence.getLastD 0) c.states).2
              idx_sequence := c.idx_sequence ++ [idx]
              score := c.score.addNegLog
                ((model.step (c.idx_sequence.getLastD 0) c.states).1.getD idx 0)
              live := idx ≠ stop_token_idx }, ?_, rfl, ?_⟩
    · unfold expandCandidate
      rw [if_pos hl]
      exact List.mem_map_of_mem _ hidx
    · show (c.score.addNegLog _).prob = 0
      unfold Score.addNegLog
      rw [h0, mul_zero]
  · intro l i j hi hj
    by_contra hcon
    have hij : i ≤ j := not_lt.mp hcon
    have hi' : ((sortCandidates l).get i).score.prob = 0 := hi
    rcases lt_or_eq_of_le hij with hij' | hij'
    · have hrel := (sorted_sortCandidates l).rel_get_of_lt hij'
      have hrel' : ((sortCandidates l).get j).score.prob
          ≤ ((sortCandidates l).get i).score.prob := hrel
      rw [hi'] at hrel'
      exact absurd hj (not_lt.mpr hrel')
    · rw [hij'] at hi'
      rw [hi'] at hj
      exact lt_irrefl 0 hj

/-- C8 witness: the expansion of the live initial candidate under the
forced-stop model keeps all `min(beam_width, 4)` successors. -/
theorem C8_witness :
    initialCandidate.live = true ∧
      (expandCandidate forcedStopModel 1 3 initialCandidate).length =
        min 3 (forcedStopModel.step
          (initialCandidate.idx_sequence.getLastD 0) initialCandidate.states).1.length :=
  ⟨rfl, (C8_zero_probability forcedStopModel 1 3 initialCandidate rfl).1⟩

/-- C4: the expansion step selects, for a live candidate, the `beam_width`
ids of highest probability, with exact ties broken in favour of the lower
id: every selected id `i` beats every unselected in-vocabulary id `j`
either strictly in probability or — at equal probability — by `i < j`.
With the uniform distribution over 4 tokens and `beam_width = 2`, the two
selected ids are `[0, 1]` at every expansion. -/
theorem C4_topk_tiebreak :
    (∀ (probs : List ℚ) (w i j : Nat),
        i ∈ (argsortDesc probs).take w → j < probs.length →
        j ∉ (argsortDesc probs).take w →
        probs.getD j 0 < probs.getD i 0 ∨
          (probs.getD i 0 = probs.getD j 0 ∧ i < j)) ∧
      (∀ c : Candidate Unit, c.live = true →
        (expandCandidate uniformModel 1 2 c).map
            (fun d => d.idx_sequence.getLastD 0) = [0, 1]) := by
  constructor
  · intro probs w i j hi hj hjn
    have hsorted : List.Sorted (idxLe probs) (argsortDesc probs) :=
      List.sorted_insertionSort (idxLe probs) (List.range probs.length)
    have hjmem : j ∈ argsortDesc probs := mem_argsortDesc.mpr hj
    have hjdrop : j ∈ (argsortDesc probs).drop w := by
      have hsplit : j ∈ (argsortDesc probs).take w ++ (argsortDesc probs).drop w := by
        rw [List.take_append_drop]
        exact hjmem
      rcases List.mem_append.mp hsplit with h | h
      · exact absurd h hjn
      · exact h
    have hrel : idxLe probs i j := hsorted.rel_of_mem_take_of_mem_drop hi hjdrop
    have hne : i ≠ j := fun h => hjn (h ▸ hi)
    rcases hrel with h | ⟨he, hle⟩
    · exact Or.inl h
    · exact Or.inr ⟨he, lt_of_le_of_ne hle hne⟩
  · intro c hc
    have harg : (argsortDesc [mkRat 1 4, mkRat 1 4, mkRat 1 4, mkRat 1 4]).take 2
        = [0, 1] := by decide
    simp [expandCandidate, hc, uniformModel, harg, List.getLastD_concat]

/-- C4 witness: the tie-break property at `probs = [0, 1, 0, 0]`, `w = 3`,
`i = 1`, `j = 3`, and the uniform scenario at the initial candidate. -/
theorem C4_witness :
    ((1 : Nat) ∈ (argsortDesc [0, 1, 0, 0]).take 3) ∧
      ((3 : Nat) < ([0, 1, 0, 0] : List ℚ).length) ∧
      ((3 : Nat) ∉ (argsortDesc [0, 1, 0, 0]).take 3) ∧
      (([0, 1, 0, 0] : List ℚ).getD 3 0 < ([0, 1, 0, 0] : List ℚ).getD 1 0 ∨
        (([0, 1, 0, 0] : List ℚ).getD 1 0 = ([0, 1, 0, 0] : List ℚ).getD 3 0 ∧
          (1 : Nat) < 3)) ∧
      initialCandidate.live = true ∧
      (expandCandidate uniformModel 1 2 initialCandidate).map
          (fun d => d.idx_sequence.getLastD 0) = [0, 1] :=
  ⟨by decide, by decide, by decide,
    C4_topk_tiebreak.1 [0, 1, 0, 0] 3 1 3 (by decide) (by decide) (by decide),
    rfl, C4_topk_tiebreak.2 initialCandidate rfl⟩

theorem expandCandidate_head_start {σ : Type} (model : SeqModel σ)
    (stop w start : Nat) (c : Candidate σ)
    (h : c.idx_sequence.head? = some start) :
    ∀ d ∈ expandCandidate model stop w c, d.idx_sequence.head? = some start := by
  intro d hd
  unfold expandCandidate at hd
  by_cases hl : c.live
  · rw [if_pos hl] at hd
    rcases List.mem_map.mp hd with ⟨idx, _, rfl⟩
    show (c.idx_sequence ++ [idx]).head? = some start
    cases hseq : c.idx_sequence with
    | nil => rw [hseq] at h; simp at h
    | cons a l =>
      rw [hseq] at h
      simpa using h
  · rw [if_neg hl] at hd
    rw [List.mem_singleton] at hd
    subst hd
    exact h

theorem advance_head_start {σ : Type} (model : SeqModel σ) (stop w start : Nat)
    (beam : List (Candidate σ))
    (h : ∀ c ∈ beam, c.idx_sequence.head? = some start) :
    ∀ c ∈ advance model stop w beam, c.idx_sequence.head? = some start := by
  intro c hc
  have hc' : c ∈ sortCandidates (beam.flatMap (expandCandidate model stop w)) :=
    List.mem_of_mem_take hc
  have hc'' : c ∈ beam.flatMap (expandCandidate model stop w) :=
    (List.perm_insertionSort scoreRel _).mem_iff.mp hc'
  rcases List.mem_flatMap.mp hc'' with ⟨a, ha, hca⟩
  exact expandCandidate_head_start model stop w start a (h a ha) c hca

theorem decodeLoop_head_start {σ : Type} (model : SeqModel σ) (stop w start : Nat) :
    ∀ (fuel : Nat) (beam : List (Candidate σ)),
      (∀ c ∈ beam, c.idx_sequence.head? = some start) →
      ∀ c ∈ (decodeLoop model stop w fuel beam).1,
        c.idx_sequence.head? = some start := by
  intro fuel
  induction fuel with
  | zero => intro beam h; simpa [decodeLoop] using h
  | succ n ih =>
    intro beam h
    simp only [decodeLoop]
    split
    · exact ih _ (advance_head_start model stop w start beam h)
    · exact h

/-- C10: every sequence decode returns begins with the start token — the
initial candidate's sequence is `[start]` and expansion only appends — so
whenever the start and stop tokens differ, the output is never the
stop-token-only sequence. -/
theorem C10_starts_with_start {σ : Type} (model : SeqModel σ) (initial_states : σ)
    (start_token_idx stop_token_idx beam_width max_len_target : Nat) (seq : List Nat)
    (hres : (decode_beam_search model initial_states start_token_idx stop_token_idx
        beam_width max_len_target).1 = some seq) :
    seq.head? = some start_token_idx ∧
      (start_token_idx ≠ stop_token_idx → seq ≠ [stop_token_idx]) := by
  have hmain : seq.head? = some start_token_idx := by
    unfold decode_beam_search at hres
    simp only at hres
    rcases hopt : (decodeLoop model stop_token_idx beam_width max_len_target
        [{ states := initial_states, idx_sequence := [start_token_idx],
           score := Score.zero, live := true }]).1.head? with _ | c
    · rw [hopt] at hres
      simp at hres
    · rw [hopt] at hres
      simp only [Option.map_some'] at hres
      have hcmem : c ∈ (decodeLoop model stop_token_idx beam_width max_len_target
          [{ states := initial_states, idx_sequence := [start_token_idx],
             score := Score.zero, live := true }]).1 :=
        List.mem_of_mem_head? hopt
      have hhead := decodeLoop_head_start model stop_token_idx beam_width
          start_token_idx max_len_target _ (by
            intro c' hc'
            rw [List.mem_singleton] at hc'
            subst hc'
            rfl) c hcmem
      rw [Option.some_inj] at hres
      rw [← hres]
      exact hhead
  refine ⟨hmain, fun hne hcontra => ?_⟩
  rw [hcontra] at hmain
  simp at hmain
  exact hne hmain.symm

/-- C10 witness: the start-token property at the forced-stop run. -/
theorem C10_witness :
    (decode_beam_search forcedStopModel () 0 1 3 10).1 = some [0, 1] ∧
      ([0, 1] : List Nat).head? = some 0 ∧
      ((0 : Nat) ≠ 1 → ([0, 1] : List Nat) ≠ [1]) :=
  ⟨by decide, C10_starts_with_start forcedStopModel () 0 1 3 10 [0, 1] (by decide)⟩

theorem expandCandidate_ne_nil {σ : Type} (model : SeqModel σ) (stop w : Nat)
    (hw : 0 < w) (hne : ∀ t s, (model.step t s).1 ≠ []) (c : Candidate σ) :
    expandCandidate model stop w c ≠ [] := by
  unfold expandCandidate
  by_cases hl : c.live
  · rw [if_pos hl]
    intro hcon
    have hlen := congrArg List.length hcon
    rw [List.length_map, List.length_take, length_argsortDesc, List.length_nil] at hlen
    rcases Nat.min_eq_zero_iff.mp hlen with h | h
    · omega
    · exact hne _ _ (List.length_eq_zero.mp h)
  · rw [if_neg hl]
    simp

theorem advance_ne_nil {σ : Type} (model : SeqModel σ) (stop w : Nat)
    (hw : 0 < w) (hne : ∀ t s, (model.step t s).1 ≠ [])
    (beam : List (Candidate σ)) (hb : beam ≠ []) :
    advance model stop w beam ≠ [] := by
  unfold advance
  intro hcon
  have hlen := congrArg List.length hcon
  rw [List.length_take, List.length_nil] at hlen
  rcases Nat.min_eq_zero_iff.mp hlen with h | h
  · omega
  · have hlen2 : (beam.flatMap (expandCandidate model stop w)).length = 0 := by
      rw [← (List.perm_insertionSort scoreRel
        (beam.flatMap (expandCandidate model stop w))).length_eq]
      exact h
    rw [List.length_eq_zero] at hlen2
    cases beam with
    | nil => exact hb rfl
    | cons c cs =>
      rw [List.flatMap_cons] at hlen2
      rcases List.append_eq_nil.mp hlen2 with ⟨h1, _⟩
      exact expandCandidate_ne_nil model stop w hw hne c h1

theorem decodeLoop_ne_nil {σ : Type} (model : SeqModel σ) (stop w : Nat)
    (hw : 0 < w) (hne : ∀ t s, (model.step t s).1 ≠ []) :
    ∀ (fuel : Nat) (beam : List (Candidate σ)), beam ≠ [] →
      (decodeLoop model stop w fuel beam).1 ≠ [] := by
  intro fuel
  induction fuel with
  | zero => intro beam hb; simpa [decodeLoop] using hb
  | succ n ih =>
    intro beam hb
    simp only [decodeLoop]
    split
    · exact ih _ (advance_ne_nil model stop w hw hne beam hb)
    · exact hb

/-- C6 counterexample: a model whose distribution sums to 2 (not ~1) is
not rejected: decode runs the full search on the raw values and returns a
normal sequence — no immediate abort takes place.  (The winning hypothesis
even accumulates cumulative probability 8 > 1, i.e. a negative score.) -/
theorem C6_counterexample :
    (([2, 0, 0, 0] : List ℚ).sum ≠ 1) ∧
      decode_beam_search degenerateModel () 0 1 2 3 = (some [0, 0, 0, 0], 3) := by
  constructor
  · decide
  · decide

/-- C6 (amended): the decoder performs no validation of the model's
distributions and never fails fast: for every model behaviour — degenerate
distributions included — with nonempty distributions and `beam_width ≥ 1`,
the decode call completes and returns a sequence. -/
theorem C6_no_failfast {σ : Type} (model : SeqModel σ) (initial_states : σ)
    (start_token_idx stop_token_idx beam_width max_len_target : Nat)
    (hw : 0 < beam_width) (hne : ∀ t s, (model.step t s).1 ≠ []) :
    ∃ seq, (decode_beam_search model initial_states start_token_idx stop_token_idx
        beam_width max_len_target).1 = some seq := by
  unfold decode_beam_search
  simp only
  have h := decodeLoop_ne_nil model stop_token_idx beam_width hw hne max_len_target
      [{ states := initial_states, idx_sequence := [start_token_idx],
         score := Score.zero, live := true }] (by simp)
  rcases hbeam : (decodeLoop model stop_token_idx beam_width max_len_target
      [{ states := initial_states, idx_sequence := [start_token_idx],
         score := Score.zero, live := true }]).1 with _ | ⟨c, cs⟩
  · exact absurd hbeam h
  · exact ⟨c.idx_sequence, rfl⟩

/-- C6 witness: the amended never-fails property at the degenerate model. -/
theorem C6_witness :
    ((0 : Nat) < 2) ∧ (∀ t s, (degenerateModel.step t s).1 ≠ []) ∧
      ∃ seq, (decode_beam_search degenerateModel () 0 1 2 3).1 = some seq :=
  ⟨by decide, by intro t s; exact (by decide : ([2, 0, 0, 0] : List ℚ) ≠ []),
    C6_no_failfast degenerateModel () 0 1 2 3 (by decide)
      (by intro t s; exact (by decide : ([2, 0, 0, 0] : List ℚ) ≠ []))⟩

/-- `a` is the arg-max id of the distribution, ties broken toward the
lowest id (the determinism rule the spec fixes for selection). -/
def IsArgmaxLow (probs : List ℚ) (a : Nat) : Prop :=
  a < probs.length ∧ (∀ j < probs.length, probs.getD j 0 ≤ probs.getD a 0) ∧
    ∀ j < a, probs.getD j 0 < probs.getD a 0

/-- The arg-max id of a distribution, ties toward the lowest id — the
selection rule of the spec's pure greedy decoding. -/
def argmaxLow : List ℚ → Nat
  | [] => 0
  | [_] => 0
  | p :: q :: rest =>
    if (q :: rest).getD (argmaxLow (q :: rest)) 0 ≤ p then 0
    else argmaxLow (q :: rest) + 1

theorem isArgmaxLow_argmaxLow :
    ∀ (probs : List ℚ), probs ≠ [] → IsArgmaxLow probs (argmaxLow probs) := by
  intro probs
  induction probs with
  | nil => intro h; exact absurd rfl h
  | cons p t ih =>
    intro _
    cases t with
    | nil =>
      refine ⟨by simp [argmaxLow], ?_, ?_⟩
      · intro j hj
        have hj0 : j = 0 := by
          simp at hj
          omega
        subst hj0
        simp [argmaxLow]
      · intro j hj
        have h0 : argmaxLow [p] = 0 := rfl
        rw [h0] at hj
        exact absurd hj (Nat.not_lt_zero j)
    | cons q rest =>
      have hne : q :: rest ≠ [] := by simp
      obtain ⟨h1, h2, h3⟩ := ih hne
      have heq : argmaxLow (p :: q :: rest) =
          if (q :: rest).getD (argmaxLow (q :: rest)) 0 ≤ p then 0
          else argmaxLow (q :: rest) + 1 := rfl
      by_cases hc : (q :: rest).getD (argmaxLow (q :: rest)) 0 ≤ p
      · rw [heq, if_pos hc]
        refine ⟨by simp, ?_, ?_⟩
        · intro j hj
          cases j with
          | zero => exact le_refl _
          | succ k =>
            have hk : k < (q :: rest).length := by
              simp only [List.length_cons] at hj ⊢
              omega
            have e1 : (p :: q :: rest).getD (k + 1) 0 = (q :: rest).getD k 0 := rfl
            have e2 : (p :: q :: rest).getD 0 0 = p := rfl
            rw [e1, e2]
            exact le_trans (h2 k hk) hc
        · intro j hj
          exact absurd hj (Nat.not_lt_zero j)
      · rw [heq, if_neg hc]
        push_neg at hc
        have hgd : (p :: q :: rest).getD (argmaxLow (q :: rest) + 1) 0
            = (q :: rest).getD (argmaxLow (q :: rest)) 0 := rfl
        refine ⟨?_, ?_, ?_⟩
        · simp only [List.length_cons]
          simp only [List.length_cons] at h1
          omega
        · intro j hj
          rw [hgd]
          cases j with
          | zero =>
            have e2 : (p :: q :: rest).getD 0 0 = p := rfl
            rw [e2]
            exact le_of_lt hc
          | succ k =>
            have hk : k < (q :: rest).length := by
              simp only [List.length_cons] at hj ⊢
              omega
            have e1 : (p :: q :: rest).getD (k + 1) 0 = (q :: rest).getD k 0 := rfl
            rw [e1]
            exact h2 k hk
        · intro j hj
          rw [hgd]
          cases j with
          | zero =>
            have e2 : (p :: q :: rest).getD 0 0 = p := rfl
            rw [e2]
            exact hc
          | succ k =>
            have hk : k < argmaxLow (q :: rest) := by omega
            have e1 : (p :: q :: rest).getD (k + 1) 0 = (q :: rest).getD k 0 := rfl
            rw [e1]
            exact h3 k hk

theorem IsArgmaxLow.unique {probs : List ℚ} {a b : Nat}
    (ha : IsArgmaxLow probs a) (hb : IsArgmaxLow probs b) : a = b := by
  rcases Nat.lt_trichotomy a b with h | h | h
  · exact absurd (ha.2.1 b hb.1) (not_le.mpr (hb.2.2 a h))
  · exact h
  · exact absurd (hb.2.1 a ha.1) (not_le.mpr (ha.2.2 b h))

theorem isArgmaxLow_head_argsortDesc (probs : List ℚ) (x : Nat) (xs : List Nat)
    (hx : argsortDesc probs = x :: xs) : IsArgmaxLow probs x := by
  have hsorted : List.Sorted (idxLe probs) (argsortDesc probs) :=
    List.sorted_insertionSort (idxLe probs) (List.range probs.length)
  rw [hx] at hsorted
  have hrel : ∀ j ∈ xs, idxLe probs x j := (List.sorted_cons.mp hsorted).1
  have hmemx : x ∈ argsortDesc probs := by
    rw [hx]
    exact List.mem_cons_self _ _
  have hxlt : x < probs.length := mem_argsortDesc.mp hmemx
  refine ⟨hxlt, ?_, ?_⟩
  · intro j hj
    have hjmem : j ∈ argsortDesc probs := mem_argsortDesc.mpr hj
    rw [hx] at hjmem
    rcases List.mem_cons.mp hjmem with rfl | hjxs
    · exact le_refl _
    · rcases hrel j hjxs with h | ⟨he, _⟩
      · exact le_of_lt h
      · exact le_of_eq he.symm
  · intro j hjx
    have hjmem : j ∈ argsortDesc probs := mem_argsortDesc.mpr (lt_trans hjx hxlt)
    rw [hx] at hjmem
    rcases List.mem_cons.mp hjmem with rfl | hjxs
    · exact absurd hjx (lt_irrefl j)
    · rcases hrel j hjxs with h | ⟨_, hle⟩
      · exact h
      · exact absurd hle (not_le.mpr hjx)

theorem take_one_argsortDesc (probs : List ℚ) (h : probs ≠ []) :
    (argsortDesc probs).take 1 = [argmaxLow probs] := by
  cases hx : argsortDesc probs with
  | nil =>
    have hlen := length_argsortDesc probs
    rw [hx] at hlen
    simp only [List.length_nil] at hlen
    exact absurd (List.length_eq_zero.mp hlen.symm) h
  | cons x xs =>
    have hax : x = argmaxLow probs :=
      (isArgmaxLow_head_argsortDesc probs x xs hx).unique (isArgmaxLow_argmaxLow probs h)
    rw [hax]
    rfl

/-- Pure greedy (arg-max) decoding, written from the spec's words: at
every step append the single arg-max token of the step distribution and
continue — unless the appended token was the stop token — within the step
budget.  The refinement claim C9 compares `decode_beam_search` with
`beam_width = 1` against this. -/
def greedy {σ : Type} (model : SeqModel σ) (stop_token_idx : Nat) :
    Nat → Nat → σ → List Nat
  | 0, _, _ => []
  | budget + 1, last, st =>
    let res := model.step last st
    let a := argmaxLow res.1
    if a = stop_token_idx then [a]
    else a :: greedy model stop_token_idx budget a res.2

/-- The one successor kept by a `beam_width = 1` expansion of a live
candidate. -/
def greedySucc {σ : Type} (model : SeqModel σ) (stop : Nat) (c : Candidate σ) :
    Candidate σ :=
  { states := (model.step (c.idx_sequence.getLastD 0) c.states).2
    idx_sequence := c.idx_sequence ++
      [argmaxLow (model.step (c.idx_sequence.getLastD 0) c.states).1]
    score := c.score.addNegLog
      ((model.step (c.idx_sequence.getLastD 0) c.states).1.getD
        (argmaxLow (model.step (c.idx_sequence.getLastD 0) c.states).1) 0)
    live := argmaxLow (model.step (c.idx_sequence.getLastD 0) c.states).1 ≠ stop }

theorem expandCandidate_one {σ : Type} (model : SeqModel σ) (stop : Nat)
    (hne : ∀ t s, (model.step t s).1 ≠ []) (c : Candidate σ) (hl : c.live = true) :
    expandCandidate model stop 1 c = [greedySucc model stop c] := by
  unfold expandCandidate
  rw [if_pos hl]
  show ((argsortDesc (model.step (c.idx_sequence.getLastD 0) c.states).1).take 1).map _
      = _
  rw [take_one_argsortDesc _ (hne _ _)]
  rfl

theorem advance_singleton_one {σ : Type} (model : SeqModel σ) (stop : Nat)
    (hne : ∀ t s, (model.step t s).1 ≠ []) (c : Candidate σ) (hl : c.live = true) :
    advance model stop 1 [c] = [greedySucc model stop c] := by
  unfold advance
  have hflat : [c].flatMap (expandCandidate model stop 1) =
      expandCandidate model stop 1 c := by simp
  rw [hflat, expandCandidate_one model stop hne c hl]
  rfl

theorem decodeLoop_dead_singleton {σ : Type} (model : SeqModel σ) (stop : Nat) :
    ∀ (m : Nat) (d : Candidate σ), d.live = false →
      decodeLoop model stop 1 m [d] = ([d], 0) := by
  intro m d hd
  cases m with
  | zero => rfl
  | succ k =>
    simp only [decodeLoop]
    rw [if_neg (fun hcon => hcon.1 (by simp [liveK, hd]))]

theorem decodeLoop_one_greedy {σ : Type} (model : SeqModel σ) (stop : Nat)
    (hne : ∀ t s, (model.step t s).1 ≠ []) :
    ∀ (fuel : Nat) (c : Candidate σ), c.live = true →
      ((decodeLoop model stop 1 fuel [c]).1.head?).map Candidate.idx_sequence =
        some (c.idx_sequence ++
          greedy model stop fuel (c.idx_sequence.getLastD 0) c.states) := by
  intro fuel
  induction fuel with
  | zero =>
    intro c hl
    simp [decodeLoop, greedy]
  | succ n ih =>
    intro c hl
    have hcond : liveK [c] ≠ 0 ∧ deadK [c] < 1 := by
      constructor
      · simp [liveK, hl]
      · simp [deadK, hl]
    simp only [decodeLoop]
    rw [if_pos hcond]
    show ((decodeLoop model stop 1 n (advance model stop 1 [c])).1.head?).map
        Candidate.idx_sequence = _
    rw [advance_singleton_one model stop hne c hl]
    by_cases hstop :
        argmaxLow (model.step (c.idx_sequence.getLastD 0) c.states).1 = stop
    · have hdead : (greedySucc model stop c).live = false := by
        show decide (argmaxLow
          (model.step (c.idx_sequence.getLastD 0) c.states).1 ≠ stop) = false
        exact decide_eq_false (not_not_intro hstop)
      rw [decodeLoop_dead_singleton model stop n _ hdead]
      show some (greedySucc model stop c).idx_sequence = _
      simp only [greedy, greedySucc]
      rw [if_pos hstop]
    · have hl' : (greedySucc model stop c).live = true := by
        show decide (argmaxLow
          (model.step (c.idx_sequence.getLastD 0) c.states).1 ≠ stop) = true
        exact decide_eq_true hstop
      rw [ih (greedySucc model stop c) hl']
      show some ((c.idx_sequence ++
          [argmaxLow (model.step (c.idx_sequence.getLastD 0) c.states).1]) ++
            greedy model stop n
              ((greedySucc model stop c).idx_sequence.getLastD 0)
              (greedySucc model stop c).states) = _
      have hlast : (greedySucc model stop c).idx_sequence.getLastD 0 =
          argmaxLow (model.step (c.idx_sequence.getLastD 0) c.states).1 := by
        unfold greedySucc
        exact List.getLastD_concat _ _ _
      rw [hlast, List.append_assoc]
      show some (c.idx_sequence ++
          (argmaxLow (model.step (c.idx_sequence.getLastD 0) c.states).1 ::
            greedy model stop n
              (argmaxLow (model.step (c.idx_sequence.getLastD 0) c.states).1)
              (greedySucc model stop c).states)) = _
      simp only [greedy]
      rw [if_neg hstop]
      rfl

/-- C9: with `beam_width = 1`, for every input, every initial state and
every model returning nonempty distributions, the decoder's output token
sequence equals pure greedy (arg-max) decoding: the start token followed,
step by step, by the arg-max token of each step distribution, until the
stop token is emitted or the step budget is exhausted. -/
theorem C9_greedy_equivalence {σ : Type} (model : SeqModel σ) (initial_states : σ)
    (start_token_idx stop_token_idx max_len_target : Nat)
    (hne : ∀ t s, (model.step t s).1 ≠ []) :
    (decode_beam_search model initial_states start_token_idx stop_token_idx 1
        max_len_target).1 =
      some (start_token_idx ::
        greedy model stop_token_idx max_len_target start_token_idx initial_states) := by
  unfold decode_beam_search
  simp only
  rw [decodeLoop_one_greedy model stop_token_idx hne max_len_target
    { states := initial_states, idx_sequence := [start_token_idx],
      score := Score.zero, live := true } rfl]
  rfl

/-- C9 witness: greedy equivalence at the forced-stop model, where both
sides produce the sequence start token :: stop token. -/
theorem C9_witness :
    (∀ t s, (forcedStopModel.step t s).1 ≠ []) ∧
      (decode_beam_search forcedStopModel () 0 1 1 10).1 =
        some (0 :: greedy forcedStopModel 1 10 0 ()) :=
  ⟨by intro t s; exact (by decide : ([0, 1, 0, 0] : List ℚ) ≠ []),
    C9_greedy_equivalence forcedStopModel () 0 1 10
      (by intro t s; exact (by decide : ([0, 1, 0, 0] : List ℚ) ≠ []))⟩
